import Mathlib

/-!
Verification development for the `chuva` repository (rain nowcast service).

The Rust sources are shallowly embedded here:
* grid constants and the offset arithmetic of `Projector::to_offset`
  (`src/chuva/src/lib.rs`, `src/dataset/src/lib.rs`);
* the ensemble ingestion reductions of `load_ensemble_dataset`
  (both the per-cell gather of `src/chuva/src/lib.rs` and the chunked
  variant of `src/chuva/src/load.rs` / `src/dataset/src/lib.rs`);
* `Chuva::by_offset` (`src/chuva/src/lib.rs`, `src/moros/src/chuva.rs`);
* `get_time_slot` (`src/moros/src/chuva.rs`);
* `Chuva::by_postcode4` (`src/moros/src/chuva.rs`), with the external
  fst map modelled as a sorted association list per its documented
  contract ("first key strictly greater than the query");
* the two-stage tokenizer / merge automaton of
  `src/moros/src/interpreter.rs`.

Rust `f32`/`f64` values are embedded as exact rationals: every numeric
literal appearing in the embedded code paths denotes the exact value of
the corresponding float, and the embedded comparisons (`> 0`, `== 0`,
range membership) agree with the float comparisons on those values.
Iterators with internal mutable state are embedded as explicit state
machines; Rust loops become fuel-indexed recursions where the fuel is
shown (or chosen) to be large enough, so that every definition stays
executable by the kernel.  A Rust `panic!`/failed `assert!` is embedded
as the `Except.error` branch of an `Except Unit` result.
-/

namespace Chuva

/-- Grid width, `WIDTH` in `src/chuva/src/lib.rs`. -/
def WIDTH : ℕ := 700

/-- Grid height, `HEIGHT` in `src/chuva/src/lib.rs`. -/
def HEIGHT : ℕ := 765

/-- Number of 5-minute forecast steps, `STEPS` in `src/chuva/src/lib.rs`. -/
def STEPS : ℕ := 25

/-- `MAX_OFFSET = HEIGHT * WIDTH * STEPS - STEPS` from `src/chuva/src/lib.rs`. -/
def MAX_OFFSET : ℕ := HEIGHT * WIDTH * STEPS - STEPS

/-- `coords_within_bounds` from `src/chuva/src/lib.rs`.  The Rust function
also requires `lat`/`lon` to be finite floats; rationals are always finite.
The three bound constants are the decimal expansions printed in the source
(`10.856452941894531`, `48.895301818847656`, `55.973602294921875`), written
as explicit fractions so that the kernel can evaluate comparisons. -/
def coords_within_bounds (lat lon : ℚ) : Bool :=
  decide (0 ≤ lon) && decide (lon < mkRat 10856452941894531 1000000000000000) &&
  decide (mkRat 48895301818847656 1000000000000000 ≤ lat) &&
  decide (lat < mkRat 55973602294921875 1000000000000000)

/-- `Projector::to_offset` from `src/chuva/src/lib.rs`, with the
floating-point stereographic projection `Projector::to_x_y` abstracted as
an arbitrary oracle `to_x_y : lat → lon → Option (x, y)`.  The source's
`assert!(offset <= MAX_OFFSET)` is embedded as the `Except.error` branch;
`Except.ok none` is the "coverage miss" return. -/
def to_offset (to_x_y : ℚ → ℚ → Option (ℕ × ℕ)) (lat lon : ℚ) :
    Except Unit (Option ℕ) :=
  if coords_within_bounds lat lon = false then Except.ok none
  else
    match to_x_y lat lon with
    | none => Except.ok none
    | some (x, y) =>
      if x < WIDTH ∧ y < HEIGHT then
        if (x * WIDTH + y) * STEPS ≤ MAX_OFFSET then
          Except.ok (some ((x * WIDTH + y) * STEPS))
        else Except.error ()
      else Except.ok none

/-- The forecast window served for one cell: the `STEPS` consecutive
values starting at `offset`.  The immutable dataset array is embedded as
a total function from flat indices to values, so `data[offset..offset+STEPS]`
becomes this window. -/
def window (data : ℕ → ℚ) (offset : ℕ) : List ℚ :=
  (List.range STEPS).map (fun i => data (offset + i))

/-- `Chuva::by_offset` from `src/chuva/src/lib.rs`:
`assert!(offset.is_multiple_of(STEPS) && offset <= MAX_OFFSET)` followed by
returning `Some` of the `STEPS`-float slice at `offset`.  The failed assert
is the `Except.error` branch; the slice conversion `try_into().unwrap()`
always succeeds because the slice has length `STEPS`. -/
def chuva_by_offset (data : ℕ → ℚ) (offset : ℕ) : Except Unit (Option (List ℚ)) :=
  if offset % STEPS = 0 ∧ offset ≤ MAX_OFFSET then
    Except.ok (some (window data offset))
  else Except.error ()

/-- `Chuva::by_offset` from `src/moros/src/chuva.rs`: this variant only
checks `assert!(offset <= MAX_OFFSET)` — it does not require `offset` to be
a multiple of `STEPS`. -/
def moros_by_offset (data : ℕ → ℚ) (offset : ℕ) : Except Unit (Option (List ℚ)) :=
  if offset ≤ MAX_OFFSET then Except.ok (some (window data offset))
  else Except.error ()

/-- Truncation toward zero, the semantics of Rust's `as i64` cast on a
finite float value. -/
def ratTruncToward0 (q : ℚ) : ℤ :=
  if 0 ≤ q then ⌊q⌋ else ⌈q⌉

/-- `get_time_slot` from `src/moros/src/chuva.rs`.  Timestamps are embedded
as exact rational minute counts, so `(now - created_at).total(Minute)` is
the exact difference `now - created_at`.  `Err(age as i64)` is the stale
branch; `(age / 5.0) as usize` truncates the non-negative quotient, i.e.
takes its floor; the source's `assert!(slot < STEPS)` is embedded as the
outer `Option` being `none` when it would fail. -/
def get_time_slot (created_at now : ℚ) : Option (Except ℤ ℕ) :=
  let age := now - created_at
  if ¬(0 ≤ age ∧ age ≤ 120) then some (Except.error (ratTruncToward0 age))
  else
    let slot := (⌊age / 5⌋).toNat
    if slot < STEPS then some (Except.ok slot) else none

/-- Modelled from the spec's TemporalSlot contract: valid window
`age ∈ [0, 120]` gives `slot = floor(age / 5)`, otherwise a `StaleDataset`
error carrying the signed integer minute offset. -/
def slot_for_spec (created_at now : ℚ) : Except ℤ ℕ :=
  let age := now - created_at
  if 0 ≤ age ∧ age ≤ 120 then Except.ok (⌊age / 5⌋).toNat
  else Except.error (ratTruncToward0 age)

end Chuva

namespace Chuva

/-- `ENS_SIZE` from `load_ensemble_dataset`: 20 ensemble members. -/
def ENS_SIZE : ℕ := 20

/-- The flat `buf` filled by `precip.get_values_into(&mut buf, (.., time, .., ..))`
for the 4-D uint16 netcdf variable `precip_intensity` dimensioned
`[member, time, height, width]`: the hyperslab at the fixed `time` is
delivered row-major in dimension order, so flat index
`i = member * (HEIGHT*WIDTH) + row * WIDTH + col`.  The source container is
abstracted as the total function `precip member time row col`. -/
def ens_buf (precip : ℕ → ℕ → ℕ → ℕ → ℕ) (time : ℕ) : ℕ → ℕ :=
  fun i =>
    precip (i / (HEIGHT * WIDTH)) time ((i % (HEIGHT * WIDTH)) / WIDTH)
      ((i % (HEIGHT * WIDTH)) % WIDTH)

/-- The u16 value selected by `load_ensemble_dataset` in
`src/chuva/src/load.rs` (and `src/dataset/src/lib.rs`) for dataset cell
`idx` at step `time`: `buf` is split into consecutive 20-element chunks
(`as_chunks::<ENS_SIZE>`), chunk `idx` is sorted ascending
(`sort_unstable`) and entry 13 is taken; the result is stored at
`data[idx * STEPS + time]`.  `sort_unstable` is modelled by
`insertionSort`, which produces the same sorted list. -/
def chunk_rank13 (precip : ℕ → ℕ → ℕ → ℕ → ℕ) (idx time : ℕ) : ℕ :=
  (List.insertionSort (· ≤ ·)
    ((List.range ENS_SIZE).map (fun j => ens_buf precip time (ENS_SIZE * idx + j)))).getD 13 0

/-- The u16 value computed by `load_ensemble_dataset` in
`src/chuva/src/lib.rs` for grid cell (col `x`, row `y`) at step `time`:
`ens_members[z] = buf[z * WIDTH * HEIGHT + y * WIDTH + x]` for the 20
members `z`, sorted ascending, entry 13; stored at
`data[(x * WIDTH + y) * STEPS + time]`. -/
def gather_rank13 (precip : ℕ → ℕ → ℕ → ℕ → ℕ) (x y time : ℕ) : ℕ :=
  (List.insertionSort (· ≤ ·)
    ((List.range ENS_SIZE).map
      (fun z => ens_buf precip time (z * WIDTH * HEIGHT + y * WIDTH + x)))).getD 13 0

/-- Modelled from the spec: the claimed reduction — gather the 20
ensemble-member values of one cell (row `y`, col `x`) at one step, sort
ascending, take rank index 13. -/
def member_rank13 (precip : ℕ → ℕ → ℕ → ℕ → ℕ) (x y time : ℕ) : ℕ :=
  (List.insertionSort (· ≤ ·)
    ((List.range ENS_SIZE).map (fun z => precip z time y x))).getD 13 0

/-- The final scaling `f32::from(v) * 0.01` applied to the selected u16,
embedded as exact multiplication by 1/100 (the floating-point result is a
function of the selected u16 alone, so which u16 gets selected is the whole
content of the claim). -/
def scale_001 (v : ℕ) : ℚ := (v : ℚ) * mkRat 1 100

/-- A concrete ensemble input whose value is the member index: member `z`
reports `z` everywhere. -/
def precip_by_member : ℕ → ℕ → ℕ → ℕ → ℕ := fun z _ _ _ => z

/-!  The two-stage event interpreter of `src/moros/src/interpreter.rs`.
The `Tokenizer` and `Lexer` iterators are embedded as explicit state
machines.  The prediction values are embedded as exact rationals; the
two stages only compare values against zero (`> 0f32`, `== 0f32`), and
those comparisons agree with the `f32` ones on the embedded values.
Rust's `for tok in &mut self.src` loop inside `Lexer::next` and the
iterator draining are fuel-indexed recursions; the fuel passed is shown
below to be large enough, so the fuel-exhausted branch is unreachable. -/

/-- `Token` from `src/moros/src/interpreter.rs`: a maximal same-class run
over the half-open index range `[s, e)`.  (`CopyToken` in the source is a
by-value copy of `Token` with identical content, introduced only for Rust
ownership reasons; it is not a separate type here.) -/
inductive Token where
  | rain (s e : ℕ)
  | dry (s e : ℕ)
deriving DecidableEq, Repr

/-- `Expr` from `src/moros/src/interpreter.rs`. -/
inductive Expr where
  | showers (s e gaps : ℕ)
  | rain (s e : ℕ)
  | dry (s e : ℕ)
deriving DecidableEq, Repr

/-- Range start of a token. -/
def Token.start : Token → ℕ
  | .rain s _ => s
  | .dry s _ => s

/-- Range end of a token (`range.end` in the source). -/
def Token.stop : Token → ℕ
  | .rain _ e => e
  | .dry _ e => e

/-- `Token::is_dry`. -/
def Token.isDry : Token → Bool
  | .rain _ _ => false
  | .dry _ _ => true

/-- `Token::len`: length of the half-open range. -/
def Token.len (t : Token) : ℕ := t.stop - t.start

/-- `From<Token> for Expr` (also covering `From<CopyToken> for Expr`). -/
def Token.toExpr : Token → Expr
  | .rain s e => Expr.rain s e
  | .dry s e => Expr.dry s e

/-- Range start of an `Expr`. -/
def Expr.start : Expr → ℕ
  | .showers s _ _ => s
  | .rain s _ => s
  | .dry s _ => s

/-- Range end of an `Expr`. -/
def Expr.stop : Expr → ℕ
  | .showers _ e _ => e
  | .rain _ e => e
  | .dry _ e => e

/-- `Tokenizer` from `src/moros/src/interpreter.rs`: a cursor `pos` over
the prediction slice. -/
structure Tokenizer where
  pos : ℕ
  preds : List ℚ
deriving DecidableEq

/-- Helper for the Rust `self.preds.iter().enumerate().skip(i).find(p)`
idiom: the first absolute index `≥ i` whose value satisfies `p`. -/
def findFromAux (p : ℚ → Bool) : List ℚ → ℕ → Option ℕ
  | [], _ => none
  | v :: rest, i => if p v then some i else findFromAux p rest (i + 1)

/-- First index `j ≥ i` of `preds` with `p preds[j]`, if any. -/
def findFrom (p : ℚ → Bool) (preds : List ℚ) (i : ℕ) : Option ℕ :=
  findFromAux p (preds.drop i) i

/-- The end of the run starting at the tokenizer cursor: the first index
after `pos` whose value satisfies `p`, or the slice length if none does
(the `find(...)` / `else` split of `Tokenizer::next`). -/
def run_end (p : ℚ → Bool) (tk : Tokenizer) : ℕ :=
  (findFrom p tk.preds (tk.pos + 1)).getD tk.preds.length

/-- `Tokenizer::next`: at `pos`, a strictly-positive value starts a Rain
run ending at the first `== 0` value after it (or the slice end), any
other value starts a Dry run ending at the first `> 0` value after it (or
the slice end); the cursor jumps to the run end. -/
def Tokenizer.next (tk : Tokenizer) : Option (Token × Tokenizer) :=
  if tk.preds.length ≤ tk.pos then none
  else if 0 < tk.preds.getD tk.pos 0 then
    some (Token.rain tk.pos (run_end (fun v => decide (v = 0)) tk),
      ⟨run_end (fun v => decide (v = 0)) tk, tk.preds⟩)
  else
    some (Token.dry tk.pos (run_end (fun v => decide (0 < v)) tk),
      ⟨run_end (fun v => decide (0 < v)) tk, tk.preds⟩)

/-- `MergeState` from `src/moros/src/interpreter.rs` (`stop` is the Rust
field `end`, a reserved word in Lean). -/
structure MergeState where
  start : ℕ
  stop : ℕ
  num_gaps : ℕ
  last_was_dry : Bool
deriving DecidableEq, Repr

/-- `MergeState::new`. -/
def MergeState.new (tok : Token) : MergeState :=
  { start := tok.start, stop := tok.stop,
    num_gaps := if tok.isDry then 1 else 0, last_was_dry := false }

/-- `MergeState::merge`: extend the accumulator with one more token. -/
def MergeState.merge (m : MergeState) (tok : Token) : MergeState :=
  { start := m.start, stop := tok.stop,
    num_gaps := if tok.isDry then m.num_gaps + 1 else m.num_gaps,
    last_was_dry := tok.isDry }

/-- `MergeState::undo_last_dry_merge`: if the last folded token was a dry
blip, un-merge it (the source decrements `num_gaps` and `end`; both are
`usize`, and the automaton only ever calls this when `num_gaps ≥ 1` and
`end ≥ start + 2`, matching ℕ subtraction). -/
def MergeState.undo_last_dry_merge (m : MergeState) : Option (Token × MergeState) :=
  if m.last_was_dry then
    some (Token.dry (m.stop - 1) m.stop,
      { start := m.start, stop := m.stop - 1, num_gaps := m.num_gaps - 1,
        last_was_dry := false })
  else none

/-- `MergeState::into_expr`: classify the merged range. -/
def MergeState.into_expr (m : MergeState) : Expr :=
  if m.stop - m.start = 1 then
    if m.num_gaps = 1 then Expr.dry m.start m.stop else Expr.rain m.start m.stop
  else if m.num_gaps = 0 then Expr.rain m.start m.stop
  else Expr.showers m.start m.stop m.num_gaps

/-- `Lexer` from `src/moros/src/interpreter.rs`. -/
structure Lexer where
  src : Tokenizer
  merge_state : Option MergeState
  stash : Option Token
deriving DecidableEq

/-- The token-folding loop inside `Lexer::next` (`for tok in &mut self.src`
followed by the end-of-stream handling).  `fuel` bounds the number of loop
iterations; every call below passes `fuel > preds.length - pos`, which is
enough because each iteration strictly advances the cursor. -/
def lexLoop (fuel : ℕ) (merge_state : Option MergeState) (src : Tokenizer) :
    Option (Expr × Lexer) :=
  match fuel with
  | 0 => none
  | fuel + 1 =>
    match Tokenizer.next src with
    | some (tok, src') =>
      if tok.isDry = true ∧ 1 < tok.len then
        match merge_state with
        | some m => some (m.into_expr, ⟨src', none, some tok⟩)
        | none => some (tok.toExpr, ⟨src', none, none⟩)
      else
        match merge_state with
        | some m => lexLoop fuel (some (m.merge tok)) src'
        | none => lexLoop fuel (some (MergeState.new tok)) src'
    | none =>
      match merge_state with
      | some m =>
        match m.undo_last_dry_merge with
        | some (dry, m') => some (m'.into_expr, ⟨src, none, some dry⟩)
        | none => some (m.into_expr, ⟨src, none, none⟩)
      | none => none

/-- `Lexer::next`: emit the stash if present, otherwise run the folding
loop. -/
def Lexer.next (s : Lexer) : Option (Expr × Lexer) :=
  match s.stash with
  | some tok => some (tok.toExpr, { s with stash := none })
  | none => lexLoop (s.src.preds.length - s.src.pos + 1) s.merge_state s.src

/-- `Lexer::from_tokenizer`: a leading Dry token is stashed (so it is never
merged into a following shower); a leading Rain token seeds the
accumulator. -/
def Lexer.from_tokenizer (src : Tokenizer) : Lexer :=
  match Tokenizer.next src with
  | some (tok, src') =>
    if tok.isDry then ⟨src', none, some tok⟩
    else ⟨src', some (MergeState.new tok), none⟩
  | none => ⟨src, none, none⟩

/-- Drain the `Lexer` iterator into a list.  `fuel` bounds the number of
emitted exprs; `interpret` passes `2 * preds.length + 3`, which exceeds the
measure `2*(length - pos) + stash + 2*merge_state` that strictly decreases
at every emission. -/
def lexerRunAux (fuel : ℕ) (s : Lexer) : List Expr :=
  match fuel with
  | 0 => []
  | fuel + 1 =>
    match Lexer.next s with
    | none => []
    | some (e, s') => e :: lexerRunAux fuel s'

/-- The full interpreter: `Lexer::new(slot, preds).collect()`. -/
def interpret (slot : ℕ) (preds : List ℚ) : List Expr :=
  lexerRunAux (2 * preds.length + 3) (Lexer.from_tokenizer ⟨slot, preds⟩)

/-- Drain the `Tokenizer` iterator into a list (fuel-indexed; each step
strictly advances the cursor, so `preds.length - pos` steps suffice). -/
def tokensAux (fuel : ℕ) (tk : Tokenizer) : List Token :=
  match fuel with
  | 0 => []
  | fuel + 1 =>
    match Tokenizer.next tk with
    | none => []
    | some (tok, tk') => tok :: tokensAux fuel tk'

/-- The token stream of `Tokenizer::new(pos, preds)`, collected. -/
def tokens (pos : ℕ) (preds : List ℚ) : List Token :=
  tokensAux (preds.length - pos) ⟨pos, preds⟩

/-- `tokenChain a ts b`: the token ranges are non-empty, consecutive
(each starts where the previous ended), starting at `a` and ending at `b`. -/
def tokenChain : ℕ → List Token → ℕ → Bool
  | a, [], b => a == b
  | a, t :: ts, b => (t.start == a) && decide (t.start < t.stop) && tokenChain t.stop ts b

/-- A token covers its range in the class sense of the spec: a Rain range
holds strictly-positive values, a Dry range holds exactly-zero values. -/
def tokenCovers (preds : List ℚ) : Token → Bool
  | .rain s e => (List.range' s (e - s)).all (fun i => decide (0 < preds.getD i 0))
  | .dry s e => (List.range' s (e - s)).all (fun i => decide (preds.getD i 0 = 0))

/-- Adjacent tokens have different classes (so each run is maximal). -/
def alternates : List Token → Bool
  | [] => true
  | [_] => true
  | t1 :: t2 :: ts => (t1.isDry != t2.isDry) && alternates (t2 :: ts)

/-- `exprChain a es b`: the expr ranges are non-empty, consecutive, starting
at `a` and ending at `b` — they partition `[a, b)`. -/
def exprChain : ℕ → List Expr → ℕ → Bool
  | a, [], b => a == b
  | a, e :: es, b => (e.start == a) && decide (e.start < e.stop) && exprChain e.stop es b

/-- Termination measure for draining the lexer: strictly decreases at each
emitted expr. -/
def lexMeasure (s : Lexer) : ℕ :=
  2 * (s.src.preds.length - s.src.pos) + (if s.stash.isSome then 1 else 0) +
    2 * (if s.merge_state.isSome then 1 else 0)

/-- Invariant tying a lexer state to the start `a` of the output it has yet
to emit: at most one of stash/accumulator is present, its range runs from
`a` to the cursor, and a pending dry blip implies the accumulator is at
least two slots wide (so un-merging leaves a non-empty range). -/
def LexInv (s : Lexer) (a : ℕ) : Prop :=
  s.src.pos ≤ s.src.preds.length ∧
  match s.stash, s.merge_state with
  | some t, none => t.start = a ∧ t.start < t.stop ∧ t.stop = s.src.pos
  | none, some m => m.start = a ∧ m.start < m.stop ∧ m.stop = s.src.pos ∧
      (m.last_was_dry = true → m.start + 1 < m.stop)
  | none, none => a = s.src.pos
  | some _, some _ => False

/-- Byte-wise strict lexicographic order on keys, the `Ord` used by the fst
map on `&[u8]` keys (bytes are embedded as naturals). -/
def lexLt : List ℕ → List ℕ → Bool
  | [], [] => false
  | [], _ :: _ => true
  | _ :: _, [] => false
  | x :: xs, y :: ys => decide (x < y) || (x == y && lexLt xs ys)

/-- The embedded postcode fst, modelled per its documented contract as an
ordered key → offset map: `fst.range().gt(code).into_stream().next()`
yields the first key in ascending key order that is strictly greater than
the query.  With the map as a sorted association list, that is the first
list entry whose key is greater. -/
def fst_range_gt (keys : List (List ℕ × ℕ)) (q : List ℕ) : Option (List ℕ × ℕ) :=
  keys.find? (fun kv => lexLt q kv.1)

/-- `Chuva::by_postcode4` from `src/moros/src/chuva.rs`: take the first
stored key strictly greater than the query; if its leading 4 bytes equal
the query return its offset, else no match.  The source's
`assert_eq!(6, key.len(), "key is pc6")` is the `Except.error` branch. -/
def by_postcode4 (keys : List (List ℕ × ℕ)) (q : List ℕ) : Except Unit (Option ℕ) :=
  match fst_range_gt keys q with
  | none => Except.ok none
  | some (key, offset) =>
    if key.length = 6 then
      Except.ok (if key.take 4 = q then some offset else none)
    else Except.error ()

/-- Modelled from the spec: the lexicographically smallest stored key
strictly greater than the query, computed order-independently as a
minimum over all qualifying entries. -/
def min_key_gt (keys : List (List ℕ × ℕ)) (q : List ℕ) : Option (List ℕ × ℕ) :=
  (keys.filter (fun kv => lexLt q kv.1)).foldl
    (fun acc kv =>
      match acc with
      | none => some kv
      | some best => if lexLt kv.1 best.1 then some kv else some best)
    none

/-- Modelled from the spec: the prefix-4 lookup returns the offset of the
lexicographically smallest stored key strictly greater than the query
exactly when that key's first 4 characters equal the query, and no match
otherwise. -/
def by_postcode4_spec (keys : List (List ℕ × ℕ)) (q : List ℕ) : Option ℕ :=
  match min_key_gt keys q with
  | none => none
  | some (key, offset) => if key.take 4 = q then some offset else none

/-- `findFromAux` success: the found index is in range, satisfies the
predicate, and is the first such index. -/
theorem findFromAux_some (p : ℚ → Bool) :
    ∀ (l : List ℚ) (i j : ℕ), findFromAux p l i = some j →
      i ≤ j ∧ j < i + l.length ∧ p (l.getD (j - i) 0) = true ∧
        ∀ k, i ≤ k → k < j → p (l.getD (k - i) 0) = false := by
  intro l
  induction l with
  | nil => intro i j h; simp [findFromAux] at h
  | cons v rest ih =>
    intro i j h
    simp only [findFromAux] at h
    by_cases hp : p v = true
    · rw [if_pos hp] at h
      obtain rfl : i = j := Option.some.inj h
      refine ⟨le_refl _, by simp, by simpa using hp, ?_⟩
      intro k hk1 hk2
      omega
    · rw [if_neg hp] at h
      obtain ⟨ih1, ih2, ih3, ih4⟩ := ih (i + 1) j h
      refine ⟨by omega, by simp; omega, ?_, ?_⟩
      · rw [show j - i = (j - (i + 1)) + 1 by omega]
        simpa using ih3
      · intro k hk1 hk2
        rcases Nat.eq_or_lt_of_le hk1 with rfl | hk
        · simpa using Bool.of_not_eq_true hp
        · rw [show k - i = (k - (i + 1)) + 1 by omega]
          simpa using ih4 k hk hk2

/-- `findFromAux` failure: no index in range satisfies the predicate. -/
theorem findFromAux_none (p : ℚ → Bool) :
    ∀ (l : List ℚ) (i : ℕ), findFromAux p l i = none →
      ∀ k, i ≤ k → k < i + l.length → p (l.getD (k - i) 0) = false := by
  intro l
  induction l with
  | nil => intro i _ k _ h2; simp at h2; omega
  | cons v rest ih =>
    intro i h k hk1 hk2
    simp only [findFromAux] at h
    by_cases hp : p v = true
    · rw [if_pos hp] at h; exact absurd h (by simp)
    · rw [if_neg hp] at h
      rcases Nat.eq_or_lt_of_le hk1 with rfl | hk
      · simpa using Bool.of_not_eq_true hp
      · rw [show k - i = (k - (i + 1)) + 1 by omega]
        have := ih (i + 1) h k hk (by simp at hk2 ⊢; omega)
        simpa using this

/-- `getD` through `drop`, for re-indexing `findFromAux` facts. -/
theorem getD_drop_eq (preds : List ℚ) (i k : ℕ) (h : i ≤ k) :
    (preds.drop i).getD (k - i) 0 = preds.getD k 0 := by
  rw [List.getD_eq_getElem?_getD, List.getD_eq_getElem?_getD, List.getElem?_drop]
  congr 2
  omega

/-- `findFrom` success facts in terms of the original list. -/
theorem findFrom_some (p : ℚ → Bool) (preds : List ℚ) (i j : ℕ)
    (h : findFrom p preds i = some j) :
    i ≤ j ∧ j < preds.length ∧ p (preds.getD j 0) = true ∧
      ∀ k, i ≤ k → k < j → p (preds.getD k 0) = false := by
  obtain ⟨h1, h2, h3, h4⟩ := findFromAux_some p (preds.drop i) i j h
  rw [List.length_drop] at h2
  refine ⟨h1, by omega, ?_, ?_⟩
  · rwa [getD_drop_eq preds i j h1] at h3
  · intro k hk1 hk2
    have := h4 k hk1 hk2
    rwa [getD_drop_eq preds i k hk1] at this

/-- `findFrom` failure facts in terms of the original list. -/
theorem findFrom_none (p : ℚ → Bool) (preds : List ℚ) (i : ℕ)
    (h : findFrom p preds i = none) :
    ∀ k, i ≤ k → k < preds.length → p (preds.getD k 0) = false := by
  intro k h1 h2
  have := findFromAux_none p (preds.drop i) i h k h1
    (by rw [List.length_drop]; omega)
  rwa [getD_drop_eq preds i k h1] at this

/-- Facts about a run end: it strictly advances the cursor, stays within
the slice, no strict interior index satisfies the stop predicate, and if
the run stops before the slice end then the stop index satisfies it. -/
theorem run_end_facts (p : ℚ → Bool) (tk : Tokenizer)
    (hpos : tk.pos < tk.preds.length) :
    tk.pos < run_end p tk ∧ run_end p tk ≤ tk.preds.length ∧
    (∀ k, tk.pos + 1 ≤ k → k < run_end p tk → p (tk.preds.getD k 0) = false) ∧
    (run_end p tk < tk.preds.length → p (tk.preds.getD (run_end p tk) 0) = true) := by
  unfold run_end
  cases hf : findFrom p tk.preds (tk.pos + 1) with
  | none =>
    simp only [Option.getD_none]
    exact ⟨hpos, le_refl _, fun k h1 h2 => findFrom_none p _ _ hf k h1 h2,
      fun h => absurd h (lt_irrefl _)⟩
  | some j =>
    simp only [Option.getD_some]
    obtain ⟨h1, h2, h3, h4⟩ := findFrom_some p _ _ _ hf
    exact ⟨by omega, le_of_lt h2, fun k hk1 hk2 => h4 k hk1 hk2, fun _ => h3⟩

/-- `Tokenizer::next` returns `None` exactly when the cursor is past the
slice. -/
theorem next_eq_none_iff (tk : Tokenizer) :
    Tokenizer.next tk = none ↔ tk.preds.length ≤ tk.pos := by
  unfold Tokenizer.next
  split_ifs with h1 h2 <;> simp [h1]

/-- Structural facts about an emitted token: its range runs from the old
cursor to the new one, strictly forward, within the slice, and the slice
itself is unchanged. -/
theorem next_some_facts (tk : Tokenizer) (tok : Token) (tk' : Tokenizer)
    (h : Tokenizer.next tk = some (tok, tk')) :
    tok.start = tk.pos ∧ tok.stop = tk'.pos ∧ tk'.preds = tk.preds ∧
      tk.pos < tk'.pos ∧ tk'.pos ≤ tk.preds.length := by
  unfold Tokenizer.next at h
  split_ifs at h with h1 h2
  all_goals
    injection h with h'
    injection h' with ha hb
    subst ha
    subst hb
    obtain ⟨hlt, hle, -, -⟩ := run_end_facts _ tk (by omega)
    exact ⟨rfl, rfl, rfl, hlt, hle⟩

/-- On a slice of non-negative values, every emitted token covers its range
in the class sense: Rain ranges hold strictly-positive values, Dry ranges
hold exactly-zero values. -/
theorem next_covers (tk : Tokenizer) (tok : Token) (tk' : Tokenizer)
    (hnn : ∀ v ∈ tk.preds, 0 ≤ v)
    (h : Tokenizer.next tk = some (tok, tk')) :
    tokenCovers tk.preds tok = true := by
  have hgd : ∀ k, k < tk.preds.length → 0 ≤ tk.preds.getD k 0 := by
    intro k hk
    rw [List.getD_eq_getElem?_getD, List.getElem?_eq_getElem hk]
    exact hnn _ (List.getElem_mem hk)
  unfold Tokenizer.next at h
  split_ifs at h with h1 h2
  · injection h with h'
    injection h' with ha hb
    subst ha
    subst hb
    obtain ⟨hlt, hle, hint, -⟩ := run_end_facts _ tk (by omega)
    unfold tokenCovers
    rw [List.all_eq_true]
    intro i hi
    rw [List.mem_range'_1] at hi
    obtain ⟨hi1, hi2⟩ := hi
    have hi2' : i < run_end (fun v => decide (v = 0)) tk := by omega
    rw [decide_eq_true_iff]
    rcases Nat.eq_or_lt_of_le hi1 with heq | hgt
    · rw [← heq]
      exact h2
    · have hne := hint i (by omega) hi2'
      rw [decide_eq_false_iff_not] at hne
      exact lt_of_le_of_ne (hgd i (by omega)) (Ne.symm hne)
  · injection h with h'
    injection h' with ha hb
    subst ha
    subst hb
    obtain ⟨hlt, hle, hint, -⟩ := run_end_facts _ tk (by omega)
    unfold tokenCovers
    rw [List.all_eq_true]
    intro i hi
    rw [List.mem_range'_1] at hi
    obtain ⟨hi1, hi2⟩ := hi
    have hi2' : i < run_end (fun v => decide (0 < v)) tk := by omega
    rw [decide_eq_true_iff]
    rcases Nat.eq_or_lt_of_le hi1 with heq | hgt
    · rw [← heq]
      exact le_antisymm (not_lt.mp h2) (hgd tk.pos (by omega))
    · have hne := hint i (by omega) hi2'
      rw [decide_eq_false_iff_not] at hne
      exact le_antisymm (not_lt.mp hne) (hgd i (by omega))

/-- Consecutive emitted tokens have different classes: a Rain run stops at
an exactly-zero value, which starts a Dry run, and vice versa. -/
theorem next_next_class (tk : Tokenizer) (tok : Token) (tk' : Tokenizer)
    (tok2 : Token) (tk'' : Tokenizer)
    (h1 : Tokenizer.next tk = some (tok, tk'))
    (h2 : Tokenizer.next tk' = some (tok2, tk'')) :
    (tok.isDry != tok2.isDry) = true := by
  unfold Tokenizer.next at h1
  split_ifs at h1 with ha hb
  · injection h1 with h'
    injection h' with hx hy
    subst hx
    subst hy
    obtain ⟨hlt, hle, hint, hstop⟩ := run_end_facts _ tk (by omega)
    have hp : run_end (fun v => decide (v = 0)) tk < tk.preds.length := by
      by_contra hc
      have hnone := (next_eq_none_iff ⟨run_end (fun v => decide (v = 0)) tk, tk.preds⟩).mpr
        (by simpa using not_lt.mp hc)
      rw [h2] at hnone
      exact absurd hnone (by simp)
    have hz := hstop hp
    rw [decide_eq_true_iff] at hz
    unfold Tokenizer.next at h2
    rw [if_neg (by simpa using not_le.mpr hp),
      if_neg (by simp only; rw [hz]; exact lt_irrefl 0)] at h2
    injection h2 with h''
    injection h'' with hx2 hy2
    subst hx2
    rfl
  · injection h1 with h'
    injection h' with hx hy
    subst hx
    subst hy
    obtain ⟨hlt, hle, hint, hstop⟩ := run_end_facts _ tk (by omega)
    have hp : run_end (fun v => decide (0 < v)) tk < tk.preds.length := by
      by_contra hc
      have hnone := (next_eq_none_iff ⟨run_end (fun v => decide (0 < v)) tk, tk.preds⟩).mpr
        (by simpa using not_lt.mp hc)
      rw [h2] at hnone
      exact absurd hnone (by simp)
    have hz := hstop hp
    rw [decide_eq_true_iff] at hz
    unfold Tokenizer.next at h2
    rw [if_neg (by simpa using not_le.mpr hp), if_pos (by simpa using hz)] at h2
    injection h2 with h''
    injection h'' with hx2 hy2
    subst hx2
    rfl

/-- The collected token stream of a tokenizer forms a chain from the
cursor to the slice length (given enough fuel). -/
theorem tokensAux_chain :
    ∀ (fuel : ℕ) (tk : Tokenizer),
      tk.preds.length - tk.pos ≤ fuel → tk.pos ≤ tk.preds.length →
      tokenChain tk.pos (tokensAux fuel tk) tk.preds.length = true := by
  intro fuel
  induction fuel with
  | zero =>
    intro tk h1 h2
    simp only [tokensAux, tokenChain, beq_iff_eq]
    omega
  | succ fuel ih =>
    intro tk h1 h2
    simp only [tokensAux]
    cases hn : Tokenizer.next tk with
    | none =>
      have := (next_eq_none_iff tk).mp hn
      simp only [tokenChain, beq_iff_eq]
      omega
    | some p =>
      obtain ⟨tok, tk'⟩ := p
      obtain ⟨hs, he, hp, hlt, hle⟩ := next_some_facts tk tok tk' hn
      simp only [tokenChain, Bool.and_eq_true, beq_iff_eq, decide_eq_true_eq]
      refine ⟨⟨hs, by omega⟩, ?_⟩
      have ihres := ih tk' (by rw [hp]; omega) (by rw [hp]; omega)
      rw [hp] at ihres
      rwa [he]

/-- Every token in the collected stream covers its range in the class
sense, on a slice of non-negative values. -/
theorem tokensAux_covers :
    ∀ (fuel : ℕ) (tk : Tokenizer), (∀ v ∈ tk.preds, 0 ≤ v) →
      ∀ t ∈ tokensAux fuel tk, tokenCovers tk.preds t = true := by
  intro fuel
  induction fuel with
  | zero => intro tk _ t ht; simp [tokensAux] at ht
  | succ fuel ih =>
    intro tk hnn t ht
    simp only [tokensAux] at ht
    cases hn : Tokenizer.next tk with
    | none => rw [hn] at ht; simp at ht
    | some p =>
      obtain ⟨tok, tk'⟩ := p
      rw [hn] at ht
      obtain ⟨-, -, hp, -, -⟩ := next_some_facts tk tok tk' hn
      rcases List.mem_cons.mp ht with rfl | htail
      · exact next_covers tk t tk' hnn hn
      · have := ih tk' (by rw [hp]; exact hnn) t htail
        rwa [hp] at this

/-- Inversion: a non-empty collected token stream starts with the token
emitted by `Tokenizer::next`. -/
theorem tokensAux_cons_inv (fuel : ℕ) (tk : Tokenizer) (t : Token)
    (rest : List Token) (h : tokensAux fuel tk = t :: rest) :
    ∃ fuel' tk', fuel = fuel' + 1 ∧ Tokenizer.next tk = some (t, tk') ∧
      rest = tokensAux fuel' tk' := by
  cases fuel with
  | zero => simp [tokensAux] at h
  | succ fuel =>
    simp only [tokensAux] at h
    cases hn : Tokenizer.next tk with
    | none => rw [hn] at h; simp at h
    | some p =>
      obtain ⟨tok, tk'⟩ := p
      rw [hn] at h
      injection h with h1 h2
      subst h1
      exact ⟨fuel, tk', rfl, hn ▸ rfl, h2.symm⟩

/-- Prepending a token whose class differs from the head keeps the stream
alternating. -/
theorem alternates_cons (t : Token) (rest : List Token)
    (hhead : ∀ t2 rest2, rest = t2 :: rest2 → (t.isDry != t2.isDry) = true)
    (hrest : alternates rest = true) : alternates (t :: rest) = true := by
  cases rest with
  | nil => rfl
  | cons t2 rest2 =>
    simp only [alternates, Bool.and_eq_true]
    exact ⟨hhead t2 rest2 rfl, hrest⟩

/-- The collected token stream alternates between Rain and Dry, so every
emitted run is maximal. -/
theorem tokensAux_alternates :
    ∀ (fuel : ℕ) (tk : Tokenizer), alternates (tokensAux fuel tk) = true := by
  intro fuel
  induction fuel with
  | zero => intro tk; rfl
  | succ fuel ih =>
    intro tk
    simp only [tokensAux]
    cases hn : Tokenizer.next tk with
    | none => rfl
    | some p =>
      obtain ⟨tok, tk'⟩ := p
      refine alternates_cons tok (tokensAux fuel tk') ?_ (ih tk')
      intro t2 rest2 hcons
      obtain ⟨fuel', tk'', -, hn2, -⟩ := tokensAux_cons_inv fuel tk' t2 rest2 hcons
      exact next_next_class tk tok tk' t2 tk'' hn hn2

/-- Claim C7 (amended to slices of non-negative values): the tokenizer
output is a deterministic function of `(pos, preds)` (it is a pure
function); its ranges are non-empty, consecutive and span exactly
`[pos, preds.length)` (empty when `pos ≥ preds.length`); each Rain range
covers strictly-positive values and each Dry range exactly-zero values;
and consecutive runs have different classes, so each run is maximal. -/
theorem tokens_spec (pos : ℕ) (preds : List ℚ) (hnn : ∀ v ∈ preds, 0 ≤ v) :
    (pos ≤ preds.length → tokenChain pos (tokens pos preds) preds.length = true) ∧
    (preds.length ≤ pos → tokens pos preds = []) ∧
    (∀ t ∈ tokens pos preds, tokenCovers preds t = true) ∧
    alternates (tokens pos preds) = true := by
  refine ⟨?_, ?_, ?_, ?_⟩
  · intro h
    exact tokensAux_chain (preds.length - pos) ⟨pos, preds⟩ (le_refl _) h
  · intro h
    unfold tokens
    rw [show preds.length - pos = 0 by omega]
    rfl
  · exact tokensAux_covers (preds.length - pos) ⟨pos, preds⟩ hnn
  · exact tokensAux_alternates (preds.length - pos) ⟨pos, preds⟩

/-- Witness for C7's amended theorem: the tokenizer run of the source's
own sample series (all values non-negative), whose chain, coverage and
alternation the theorem certifies. -/
theorem tokens_spec_witness :
    tokenChain 0 (tokens 0 [1, 0, 0, 1, 1, 1, 0]) 7 = true ∧
    alternates (tokens 0 [1, 0, 0, 1, 1, 1, 0]) = true :=
  ⟨(tokens_spec 0 [1, 0, 0, 1, 1, 1, 0] (by decide)).1 (by decide),
   (tokens_spec 0 [1, 0, 0, 1, 1, 1, 0] (by decide)).2.2.2⟩

/-- Counterexample for C7 as stated: over arbitrary `f32` slices the claim
fails — on the slice `[-1]` the tokenizer emits `Dry(0..1)`, but the value
at index 0 is `-1`, not exactly zero (the Dry branch of `Tokenizer::next`
catches every value that is not strictly positive). -/
theorem tokens_negative_counterexample :
    tokens 0 [mkRat (-1) 1] = [Token.dry 0 1] ∧
    tokenCovers [mkRat (-1) 1] (Token.dry 0 1) = false := by
  constructor
  · rfl
  · decide

/-- `into_expr` preserves the range start. -/
theorem into_expr_start (m : MergeState) : (MergeState.into_expr m).start = m.start := by
  unfold MergeState.into_expr
  split_ifs <;> rfl

/-- `into_expr` preserves the range end. -/
theorem into_expr_stop (m : MergeState) : (MergeState.into_expr m).stop = m.stop := by
  unfold MergeState.into_expr
  split_ifs <;> rfl

/-- `Token.toExpr` preserves the range start. -/
theorem toExpr_start (t : Token) : t.toExpr.start = t.start := by
  cases t <;> rfl

/-- `Token.toExpr` preserves the range end. -/
theorem toExpr_stop (t : Token) : t.toExpr.stop = t.stop := by
  cases t <;> rfl

/-- Step equation: folding loop at an exhausted tokenizer. -/
theorem lexLoop_succ_none (fuel : ℕ) (ms : Option MergeState) (tk : Tokenizer)
    (hn : Tokenizer.next tk = none) :
    lexLoop (fuel + 1) ms tk =
      match ms with
      | some m =>
        match m.undo_last_dry_merge with
        | some (dry, m') => some (m'.into_expr, ⟨tk, none, some dry⟩)
        | none => some (m.into_expr, ⟨tk, none, none⟩)
      | none => none := by
  simp only [lexLoop, hn]

/-- Step equation: a long dry token flushes. -/
theorem lexLoop_succ_long (fuel : ℕ) (ms : Option MergeState) (tk : Tokenizer)
    (tok : Token) (tk' : Tokenizer) (hn : Tokenizer.next tk = some (tok, tk'))
    (hlong : tok.isDry = true ∧ 1 < tok.len) :
    lexLoop (fuel + 1) ms tk =
      match ms with
      | some m => some (m.into_expr, ⟨tk', none, some tok⟩)
      | none => some (tok.toExpr, ⟨tk', none, none⟩) := by
  simp only [lexLoop, hn, if_pos hlong]

/-- Step equation: any other token folds into the accumulator and the loop
continues. -/
theorem lexLoop_succ_fold (fuel : ℕ) (ms : Option MergeState) (tk : Tokenizer)
    (tok : Token) (tk' : Tokenizer) (hn : Tokenizer.next tk = some (tok, tk'))
    (hlong : ¬(tok.isDry = true ∧ 1 < tok.len)) :
    lexLoop (fuel + 1) ms tk =
      lexLoop fuel
        (some (match ms with
               | some m => m.merge tok
               | none => MergeState.new tok)) tk' := by
  simp only [lexLoop, hn, if_neg hlong]
  cases ms <;> rfl

/-- The folding loop, specified: with enough fuel and a well-placed
accumulator, it returns `none` only in the empty final state, and any
emitted expr starts at the accumulator start (or the cursor), is
non-empty, leaves a state satisfying the invariant at the expr's end, and
strictly decreases the drain measure. -/
theorem lexLoop_spec :
    ∀ (fuel : ℕ) (ms : Option MergeState) (tk : Tokenizer),
      tk.preds.length - tk.pos < fuel →
      tk.pos ≤ tk.preds.length →
      (∀ m, ms = some m → m.start < m.stop ∧ m.stop = tk.pos ∧
        (m.last_was_dry = true → m.start + 1 < m.stop)) →
      (lexLoop fuel ms tk = none → ms = none ∧ tk.preds.length = tk.pos) ∧
      (∀ e s', lexLoop fuel ms tk = some (e, s') →
        s'.src.preds = tk.preds ∧
        e.start = (match ms with | some m => m.start | none => tk.pos) ∧
        e.start < e.stop ∧
        LexInv s' e.stop ∧
        lexMeasure s' < 2 * (tk.preds.length - tk.pos) +
          2 * (if ms.isSome then 1 else 0)) := by
  intro fuel
  induction fuel with
  | zero =>
    intro ms tk hfuel hpos hms
    omega
  | succ fuel ih =>
    intro ms tk hfuel hpos hms
    cases hn : Tokenizer.next tk with
    | none =>
      have hlen := (next_eq_none_iff tk).mp hn
      have hpe : tk.preds.length = tk.pos := le_antisymm hlen hpos
      rw [lexLoop_succ_none fuel ms tk hn]
      cases ms with
      | none =>
        refine ⟨fun _ => ⟨rfl, hpe⟩, ?_⟩
        intro e s' h
        exact absurd h (by simp)
      | some m =>
        obtain ⟨hms1, hms2, hms3⟩ := hms m rfl
        cases hld : m.last_was_dry with
        | false =>
          simp only [MergeState.undo_last_dry_merge, hld, Bool.false_eq_true,
            if_false]
          refine ⟨fun h => absurd h (by simp), ?_⟩
          intro e s' h
          injection h with h'
          injection h' with h1 h2
          subst h1
          subst h2
          refine ⟨rfl, into_expr_start m, ?_, ?_, ?_⟩
          · rw [into_expr_start, into_expr_stop]
            exact hms1
          · refine ⟨hpos, ?_⟩
            rw [into_expr_stop]
            exact hms2
          · simp only [lexMeasure, Option.isSome_none, Bool.false_eq_true,
              if_false, Option.isSome_some, if_true]
            omega
        | true =>
          simp only [MergeState.undo_last_dry_merge, hld, if_true]
          have hwide := hms3 hld
          refine ⟨fun h => absurd h (by simp), ?_⟩
          intro e s' h
          injection h with h'
          injection h' with h1 h2
          subst h1
          subst h2
          refine ⟨rfl, into_expr_start _, ?_, ?_, ?_⟩
          · rw [into_expr_start, into_expr_stop]
            simp only
            omega
          · refine ⟨hpos, ?_⟩
            rw [into_expr_stop]
            simp only [Token.start, Token.stop]
            exact ⟨trivial, by omega, hms2⟩
          · simp only [lexMeasure, Option.isSome_none, Bool.false_eq_true,
              if_false, Option.isSome_some, if_true]
            omega
    | some p =>
      obtain ⟨tok, tk'⟩ := p
      obtain ⟨hts, hte, htp, htlt, htle⟩ := next_some_facts tk tok tk' hn
      have hposlt : tk.pos < tk.preds.length := by
        by_contra hc
        have hmp := (next_eq_none_iff tk).mpr (not_lt.mp hc)
        rw [hn] at hmp
        exact absurd hmp (by simp)
      by_cases hlong : tok.isDry = true ∧ 1 < tok.len
      · rw [lexLoop_succ_long fuel ms tk tok tk' hn hlong]
        have hwide : tk.pos + 2 ≤ tk'.pos := by
          have := hlong.2
          unfold Token.len at this
          omega
        cases ms with
        | none =>
          refine ⟨fun h => absurd h (by simp), ?_⟩
          intro e s' h
          injection h with h'
          injection h' with h1 h2
          subst h1
          subst h2
          refine ⟨htp, ?_, ?_, ?_, ?_⟩
          · rw [toExpr_start, hts]
          · rw [toExpr_start, toExpr_stop]
            omega
          · refine ⟨by rw [htp]; exact htle, ?_⟩
            rw [toExpr_stop, hte]
          · simp only [lexMeasure, Option.isSome_none, Bool.false_eq_true,
              if_false]
            rw [htp]
            omega
        | some m =>
          obtain ⟨hms1, hms2, hms3⟩ := hms m rfl
          refine ⟨fun h => absurd h (by simp), ?_⟩
          intro e s' h
          injection h with h'
          injection h' with h1 h2
          subst h1
          subst h2
          refine ⟨htp, into_expr_start m, ?_, ?_, ?_⟩
          · rw [into_expr_start, into_expr_stop]
            exact hms1
          · refine ⟨by rw [htp]; exact htle, ?_⟩
            rw [into_expr_stop]
            exact ⟨by omega, by omega, hte⟩
          · simp only [lexMeasure, Option.isSome_none, Bool.false_eq_true,
              if_false, Option.isSome_some, if_true]
            rw [htp]
            omega
      · rw [lexLoop_succ_fold fuel ms tk tok tk' hn hlong]
        have hmfacts : ∀ m', (match ms with
            | some m => m.merge tok
            | none => MergeState.new tok) = m' →
            m'.start < m'.stop ∧ m'.stop = tk'.pos ∧
              (m'.last_was_dry = true → m'.start + 1 < m'.stop) := by
          intro m' hm'
          cases ms with
          | none =>
            subst hm'
            simp only [MergeState.new, Bool.false_eq_true, false_implies,
              and_true]
            exact ⟨by omega, by omega⟩
          | some m =>
            obtain ⟨hms1, hms2, hms3⟩ := hms m rfl
            subst hm'
            simp only [MergeState.merge]
            refine ⟨by omega, by omega, ?_⟩
            intro hdr
            have hnot : ¬(1 < tok.len) := fun hl => hlong ⟨hdr, hl⟩
            unfold Token.len at hnot
            omega
        have hih := ih (some (match ms with
            | some m => m.merge tok
            | none => MergeState.new tok)) tk'
          (by rw [htp]; omega) (by rw [htp]; exact htle)
          (fun m' hm' => hmfacts m' (Option.some.inj hm'))
        refine ⟨?_, ?_⟩
        · intro h
          obtain ⟨habs, -⟩ := hih.1 h
          exact absurd habs (by simp)
        · intro e s' h
          obtain ⟨hh1, hh2, hh3, hh4, hh5⟩ := hih.2 e s' h
          refine ⟨by rw [hh1, htp], ?_, hh3, hh4, ?_⟩
          · rw [hh2]
            cases ms with
            | none => simp only [MergeState.new]; rw [hts]
            | some m => simp only [MergeState.merge]
          · rw [htp] at hh5
            simp only [Option.isSome_some, if_true] at hh5
            cases ms with
            | none =>
              simp only [Option.isSome_none, Bool.false_eq_true, if_false]
              omega
            | some m =>
              simp only [Option.isSome_some, if_true]
              omega

/-- `from_tokenizer` does not change the underlying slice. -/
theorem from_tokenizer_preds (tk : Tokenizer) :
    (Lexer.from_tokenizer tk).src.preds = tk.preds := by
  unfold Lexer.from_tokenizer
  cases hn : Tokenizer.next tk with
  | none => rfl
  | some p =>
    obtain ⟨tok, tk'⟩ := p
    obtain ⟨-, -, htp, -, -⟩ := next_some_facts tk tok tk' hn
    dsimp only
    by_cases hdry : tok.isDry = true
    · rw [if_pos hdry]
      exact htp
    · rw [if_neg hdry]
      exact htp

/-- The drain measure is bounded by twice the slice length plus three. -/
theorem lexMeasure_le (s : Lexer) : lexMeasure s ≤ 2 * s.src.preds.length + 3 := by
  unfold lexMeasure
  split_ifs <;> omega

/-- Draining the lexer from a state satisfying the invariant at `a` yields
a chain of non-empty consecutive expr ranges from `a` to the slice length. -/
theorem lexerRunAux_chain :
    ∀ (fuel : ℕ) (s : Lexer) (a : ℕ),
      LexInv s a → lexMeasure s ≤ fuel →
      exprChain a (lexerRunAux fuel s) s.src.preds.length = true := by
  intro fuel
  induction fuel with
  | zero =>
    intro s a hinv hmu
    obtain ⟨hpos, hrest⟩ := hinv
    cases hst : s.stash with
    | some t =>
      exfalso
      unfold lexMeasure at hmu
      rw [hst] at hmu
      simp at hmu
    | none =>
      cases hmsv : s.merge_state with
      | some m =>
        exfalso
        unfold lexMeasure at hmu
        rw [hmsv] at hmu
        simp at hmu
      | none =>
        simp only [hst, hmsv] at hrest
        unfold lexMeasure at hmu
        rw [hst, hmsv] at hmu
        simp only [Option.isSome_none, Bool.false_eq_true, if_false] at hmu
        simp only [lexerRunAux, exprChain, beq_iff_eq]
        omega
  | succ fuel ih =>
    intro s a hinv hmu
    obtain ⟨hpos, hrest⟩ := hinv
    cases hst : s.stash with
    | some t =>
      cases hmsv : s.merge_state with
      | some m =>
        exfalso
        simp only [hst, hmsv] at hrest
      | none =>
        simp only [hst, hmsv] at hrest
        obtain ⟨ht1, ht2, ht3⟩ := hrest
        have hnext : Lexer.next s = some (t.toExpr, { s with stash := none }) := by
          unfold Lexer.next
          rw [hst]
        simp only [lexerRunAux, hnext]
        simp only [exprChain, Bool.and_eq_true, beq_iff_eq, decide_eq_true_eq]
        refine ⟨⟨by rw [toExpr_start, ht1], by rw [toExpr_start, toExpr_stop]; exact ht2⟩, ?_⟩
        have hinv' : LexInv { s with stash := none } t.toExpr.stop := by
          refine ⟨hpos, ?_⟩
          simp only [hmsv]
          rw [toExpr_stop, ht3]
        have hmu' : lexMeasure { s with stash := none } ≤ fuel := by
          unfold lexMeasure at hmu ⊢
          rw [hst] at hmu
          simp only [Option.isSome_some, if_true, Option.isSome_none,
            Bool.false_eq_true, if_false] at hmu ⊢
          omega
        exact ih { s with stash := none } t.toExpr.stop hinv' hmu'
    | none =>
      have hnext : Lexer.next s =
          lexLoop (s.src.preds.length - s.src.pos + 1) s.merge_state s.src := by
        unfold Lexer.next
        rw [hst]
      have hmsfacts : ∀ m, s.merge_state = some m →
          m.start < m.stop ∧ m.stop = s.src.pos ∧
            (m.last_was_dry = true → m.start + 1 < m.stop) := by
        intro m hm
        simp only [hst, hm] at hrest
        exact ⟨hrest.2.1, hrest.2.2.1, hrest.2.2.2⟩
      have hspec := lexLoop_spec (s.src.preds.length - s.src.pos + 1)
        s.merge_state s.src (by omega) hpos hmsfacts
      cases hl : lexLoop (s.src.preds.length - s.src.pos + 1) s.merge_state s.src with
      | none =>
        obtain ⟨hms0, hlp⟩ := hspec.1 hl
        simp only [hst, hms0] at hrest
        simp only [lexerRunAux, hnext, hl, exprChain, beq_iff_eq]
        omega
      | some p =>
        obtain ⟨e, s'⟩ := p
        obtain ⟨hp1, hp2, hp3, hp4, hp5⟩ := hspec.2 e s' hl
        have hmu' : lexMeasure s' ≤ fuel := by
          unfold lexMeasure at hmu
          rw [hst] at hmu
          cases hmsv : s.merge_state with
          | some m =>
            rw [hmsv] at hmu hp5
            simp only [Option.isSome_some, if_true, Option.isSome_none,
              Bool.false_eq_true, if_false] at hmu hp5
            omega
          | none =>
            rw [hmsv] at hmu hp5
            simp only [Option.isSome_some, if_true, Option.isSome_none,
              Bool.false_eq_true, if_false] at hmu hp5
            omega
        simp only [lexerRunAux, hnext, hl, exprChain, Bool.and_eq_true,
          beq_iff_eq, decide_eq_true_eq]
        refine ⟨⟨?_, hp3⟩, ?_⟩
        · cases hmsv : s.merge_state with
          | some m =>
            simp only [hst, hmsv] at hrest
            rw [hmsv] at hp2
            rw [hp2]
            exact hrest.1
          | none =>
            simp only [hst, hmsv] at hrest
            rw [hmsv] at hp2
            rw [hp2]
            exact hrest.symm
        · have := ih s' e.stop hp4 hmu'
          rw [hp1] at this
          exact this

/-- Claim C10: on non-negative slices, the interpreter output partitions
`[slot, preds.length)`: every emitted range is non-empty, the first starts
at `slot`, each subsequent one starts where the previous ended, the last
ends at the slice length, and the output is empty when the start slot is
at or past the slice length.  (The partition structure holds for arbitrary
value signs; the hypothesis mirrors the claim.) -/
theorem interpret_partitions (slot : ℕ) (preds : List ℚ)
    (hnn : ∀ v ∈ preds, 0 ≤ v) :
    (preds.length ≤ slot → interpret slot preds = []) ∧
    (slot ≤ preds.length → exprChain slot (interpret slot preds) preds.length = true) := by
  constructor
  · intro h
    have hn : Tokenizer.next ⟨slot, preds⟩ = none := (next_eq_none_iff _).mpr h
    unfold interpret Lexer.from_tokenizer
    rw [hn]
    have hlnone : Lexer.next ⟨⟨slot, preds⟩, none, none⟩ = none := by
      unfold Lexer.next
      simp only
      rw [lexLoop_succ_none _ _ _ hn]
    show lexerRunAux (2 * preds.length + 2 + 1) ⟨⟨slot, preds⟩, none, none⟩ = []
    simp only [lexerRunAux, hlnone]
  · intro h
    have hinv : LexInv (Lexer.from_tokenizer ⟨slot, preds⟩) slot := by
      unfold Lexer.from_tokenizer
      cases hn : Tokenizer.next ⟨slot, preds⟩ with
      | none => exact ⟨h, rfl⟩
      | some p =>
        obtain ⟨tok, tk'⟩ := p
        obtain ⟨hts, hte, htp, htlt, htle⟩ := next_some_facts _ tok tk' hn
        dsimp only
        by_cases hdry : tok.isDry = true
        · rw [if_pos hdry]
          exact ⟨by rw [htp]; exact htle, hts, by omega, hte⟩
        · rw [if_neg hdry]
          refine ⟨by rw [htp]; exact htle, ?_⟩
          simp only [MergeState.new]
          exact ⟨hts, by omega, hte, by simp⟩
    have hmu : lexMeasure (Lexer.from_tokenizer ⟨slot, preds⟩) ≤
        2 * preds.length + 3 := by
      have := lexMeasure_le (Lexer.from_tokenizer ⟨slot, preds⟩)
      rw [from_tokenizer_preds] at this
      exact this
    have := lexerRunAux_chain (2 * preds.length + 3)
      (Lexer.from_tokenizer ⟨slot, preds⟩) slot hinv hmu
    rw [from_tokenizer_preds] at this
    exact this

/-- Witness for C10: the theorem applied at concrete inputs — an in-range
start slot chains across `[0, 1)`, and a start slot past the slice length
yields the empty sequence. -/
theorem interpret_partitions_witness :
    exprChain 0 (interpret 0 [1]) 1 = true ∧ interpret 2 [1] = [] :=
  ⟨(interpret_partitions 0 [1] (by decide)).2 (by decide),
   (interpret_partitions 2 [1] (by decide)).1 (by decide)⟩

/-- `lexLt` is asymmetric. -/
theorem lexLt_asymm :
    ∀ (a b : List ℕ), lexLt a b = true → lexLt b a = false := by
  intro a
  induction a with
  | nil =>
    intro b h
    cases b with
    | nil => simp [lexLt] at h
    | cons y ys => rfl
  | cons x xs ih =>
    intro b h
    cases b with
    | nil => simp [lexLt] at h
    | cons y ys =>
      simp only [lexLt, Bool.or_eq_true, decide_eq_true_eq, Bool.and_eq_true,
        beq_iff_eq] at h
      rcases h with hlt | ⟨heq, hrec⟩
      · simp only [lexLt, Bool.or_eq_false_iff, decide_eq_false_iff_not,
          Bool.and_eq_false_iff, beq_eq_false_iff_ne]
        exact ⟨by omega, Or.inl (by omega)⟩
      · subst heq
        simp only [lexLt, Bool.or_eq_false_iff, decide_eq_false_iff_not,
          Bool.and_eq_false_iff, beq_eq_false_iff_ne]
        exact ⟨by omega, Or.inr (ih ys hrec)⟩

/-- Folding the minimum over entries all greater than `best` keeps `best`. -/
theorem foldl_min_keep :
    ∀ (l : List (List ℕ × ℕ)) (best : List ℕ × ℕ),
      (∀ kv ∈ l, lexLt best.1 kv.1 = true) →
      l.foldl (fun acc kv =>
        match acc with
        | none => some kv
        | some b => if lexLt kv.1 b.1 then some kv else some b) (some best) =
        some best := by
  intro l
  induction l with
  | nil => intro best _; rfl
  | cons kv l ih =>
    intro best hall
    simp only [List.foldl_cons]
    have hfalse : lexLt kv.1 best.1 = false :=
      lexLt_asymm best.1 kv.1 (hall kv (List.mem_cons_self kv l))
    rw [if_neg (by simp [hfalse])]
    exact ih best (fun kv' h => hall kv' (List.mem_cons_of_mem kv h))

/-- On a sorted key list, the first entry greater than the query is the
minimum over all entries greater than the query. -/
theorem fst_range_gt_eq_min (q : List ℕ) :
    ∀ (keys : List (List ℕ × ℕ)),
      List.Pairwise (fun a b => lexLt a.1 b.1 = true) keys →
      fst_range_gt keys q = min_key_gt keys q := by
  intro keys
  induction keys with
  | nil => intro _; rfl
  | cons kv rest ih =>
    intro hp
    obtain ⟨hall, hrest⟩ := List.pairwise_cons.mp hp
    unfold fst_range_gt min_key_gt
    by_cases hq : lexLt q kv.1 = true
    · simp only [List.find?_cons, List.filter_cons, hq, List.foldl_cons]
      exact (foldl_min_keep _ kv
        (fun kv' h => hall kv' (List.mem_of_mem_filter h))).symm
    · have hq' : lexLt q kv.1 = false := Bool.of_not_eq_true hq
      simp only [List.find?_cons, List.filter_cons, hq']
      exact ih hrest

/-- On a sorted key list, `find?` returns exactly the minimal entry greater
than the query, and returns `none` exactly when no entry qualifies. -/
theorem find?_first_gt (q : List ℕ) :
    ∀ (keys : List (List ℕ × ℕ)),
      List.Pairwise (fun a b => lexLt a.1 b.1 = true) keys →
      (∀ kv, fst_range_gt keys q = some kv →
        kv ∈ keys ∧ lexLt q kv.1 = true ∧
        ∀ kv' ∈ keys, lexLt q kv'.1 = true → kv = kv' ∨ lexLt kv.1 kv'.1 = true) ∧
      (fst_range_gt keys q = none → ∀ kv ∈ keys, lexLt q kv.1 = false) := by
  intro keys
  induction keys with
  | nil =>
    intro _
    exact ⟨fun kv h => absurd h (by simp [fst_range_gt]),
      fun _ kv h => absurd h (by simp)⟩
  | cons kv0 rest ih =>
    intro hp
    obtain ⟨hall, hrest⟩ := List.pairwise_cons.mp hp
    obtain ⟨ih1, ih2⟩ := ih hrest
    unfold fst_range_gt at ih1 ih2 ⊢
    by_cases hq : lexLt q kv0.1 = true
    · simp only [List.find?_cons, hq]
      refine ⟨?_, fun h => absurd h (by simp)⟩
      intro kv h
      obtain rfl := (Option.some.inj h).symm
      refine ⟨List.mem_cons_self _ _, hq, ?_⟩
      intro kv' hkv' _
      rcases List.mem_cons.mp hkv' with rfl | hmem
      · exact Or.inl rfl
      · exact Or.inr (hall kv' hmem)
    · have hq' : lexLt q kv0.1 = false := Bool.of_not_eq_true hq
      simp only [List.find?_cons, hq']
      refine ⟨?_, ?_⟩
      · intro kv h
        obtain ⟨hmem, hgt, hmin⟩ := ih1 kv h
        refine ⟨List.mem_cons_of_mem kv0 hmem, hgt, ?_⟩
        intro kv' hkv' hgt'
        rcases List.mem_cons.mp hkv' with rfl | hmem'
        · exact absurd hgt' hq
        · exact hmin kv' hmem' hgt'
      · intro h kv hkv
        rcases List.mem_cons.mp hkv with rfl | hmem
        · exact Bool.of_not_eq_true hq
        · exact ih2 h kv hmem

/-- Claim C4: on a strictly sorted list of 6-byte keys, `by_postcode4`
never panics on its length assertion and equals the spec's prefix-4
lookup: it returns the offset of the lexicographically smallest stored key
strictly greater than the 4-byte query exactly when that key's first 4
bytes equal the query, and no match otherwise; the streamed first entry is
that minimal qualifying entry (so at most one entry is ever produced for a
4-byte area). -/
theorem by_postcode4_correct (keys : List (List ℕ × ℕ)) (q : List ℕ)
    (hsort : List.Pairwise (fun a b => lexLt a.1 b.1 = true) keys)
    (hlen : ∀ kv ∈ keys, kv.1.length = 6) :
    by_postcode4 keys q = Except.ok (by_postcode4_spec keys q) ∧
    (∀ kv, fst_range_gt keys q = some kv →
      kv ∈ keys ∧ lexLt q kv.1 = true ∧
      ∀ kv' ∈ keys, lexLt q kv'.1 = true → kv = kv' ∨ lexLt kv.1 kv'.1 = true) ∧
    (fst_range_gt keys q = none → by_postcode4 keys q = Except.ok none) := by
  refine ⟨?_, (find?_first_gt q keys hsort).1, ?_⟩
  · unfold by_postcode4 by_postcode4_spec
    rw [fst_range_gt_eq_min q keys hsort]
    cases hm : min_key_gt keys q with
    | none => rfl
    | some kv =>
      obtain ⟨key, off⟩ := kv
      have hfind : fst_range_gt keys q = some (key, off) := by
        rw [fst_range_gt_eq_min q keys hsort, hm]
      have hmem : (key, off) ∈ keys :=
        ((find?_first_gt q keys hsort).1 (key, off) hfind).1
      have h6 := hlen _ hmem
      dsimp only
      rw [if_pos h6]
  · intro h
    unfold by_postcode4
    rw [h]

/-- Witness for C4: the theorem applied to a concrete sorted two-key map —
the bytes of "1017CE" ↦ 5 and "1018AB" ↦ 7 — and the query "1017", whose
prefix-4 lookup the theorem resolves to the spec lookup. -/
theorem by_postcode4_correct_witness :
    by_postcode4 [([49, 48, 49, 55, 67, 69], 5), ([49, 48, 49, 56, 65, 66], 7)]
        [49, 48, 49, 55] =
      Except.ok (by_postcode4_spec
        [([49, 48, 49, 55, 67, 69], 5), ([49, 48, 49, 56, 65, 66], 7)]
        [49, 48, 49, 55]) :=
  (by_postcode4_correct
    [([49, 48, 49, 55, 67, 69], 5), ([49, 48, 49, 56, 65, 66], 7)]
    [49, 48, 49, 55] (by decide) (by decide)).1

/-- Claim C5: whenever `to_offset` succeeds with an offset (for any behaviour
of the floating-point projection oracle), the offset is a multiple of
`STEPS` and at most `MAX_OFFSET`; in particular the internal assertion never
fails, i.e. the result is never the panic branch `Except.error`. -/
theorem to_offset_valid (to_x_y : ℚ → ℚ → Option (ℕ × ℕ)) (lat lon : ℚ) :
    to_offset to_x_y lat lon ≠ Except.error () ∧
    ∀ off : ℕ, to_offset to_x_y lat lon = Except.ok (some off) →
      STEPS ∣ off ∧ off ≤ MAX_OFFSET := by
  have hbound : ∀ x y : ℕ, x < WIDTH → y < HEIGHT →
      (x * WIDTH + y) * STEPS ≤ MAX_OFFSET := by
    intro x y hx hy
    simp only [WIDTH, HEIGHT, STEPS, MAX_OFFSET] at *
    nlinarith
  unfold to_offset
  cases hc : coords_within_bounds lat lon with
  | false => simp
  | true =>
    rw [if_neg (by simp [hc])]
    cases hxy : to_x_y lat lon with
    | none => simp
    | some p =>
      obtain ⟨x, y⟩ := p
      by_cases hin : x < WIDTH ∧ y < HEIGHT
      · have hle := hbound x y hin.1 hin.2
        simp only [if_pos hin, if_pos hle]
        refine ⟨by simp, ?_⟩
        intro off hoff
        have : (x * WIDTH + y) * STEPS = off := by
          simpa using hoff
        subst this
        exact ⟨dvd_mul_left STEPS (x * WIDTH + y), hle⟩
      · simp [hin]

/-- Witness for C5: a concrete in-bounds query with a concrete projection
oracle yields offset `0`, which the theorem certifies to be a valid offset. -/
theorem to_offset_valid_witness :
    STEPS ∣ 0 ∧ (0 : ℕ) ≤ MAX_OFFSET :=
  (to_offset_valid (fun _ _ => some (0, 0)) 50 5).2 0 (by rfl)

/-- Claim C3: `get_time_slot` agrees with the spec's TemporalSlot contract on
every pair of timestamps (in particular the internal `assert!(slot < STEPS)`
never fails, so the result is never the `none` panic branch): the result is
`Ok (floor (age / 5))`, a value strictly below `STEPS = 25`, exactly when
`age = now - created_at ∈ [0, 120]` minutes, and otherwise the error carries
the toward-zero-truncated integer minute offset.  The four concrete probe
points of the claim are included. -/
theorem get_time_slot_spec :
    (∀ created_at now : ℚ,
       get_time_slot created_at now = some (slot_for_spec created_at now)) ∧
    (∀ created_at now : ℚ, ∀ s : ℕ,
       get_time_slot created_at now = some (Except.ok s) →
       s = (⌊(now - created_at) / 5⌋).toNat ∧ s < STEPS ∧
         0 ≤ now - created_at ∧ now - created_at ≤ 120) ∧
    (∀ created_at now : ℚ, ¬(0 ≤ now - created_at ∧ now - created_at ≤ 120) →
       get_time_slot created_at now =
         some (Except.error (ratTruncToward0 (now - created_at)))) ∧
    get_time_slot 0 0 = some (Except.ok 0) ∧
    get_time_slot 0 (7199 / 60) = some (Except.ok 23) ∧
    get_time_slot 0 (-1) = some (Except.error (-1)) ∧
    get_time_slot 0 121 = some (Except.error 121) := by
  have hslot : ∀ age : ℚ, 0 ≤ age → age ≤ 120 → (⌊age / 5⌋).toNat < STEPS := by
    intro age h0 h120
    have hq : age / 5 < 25 := by
      rw [div_lt_iff₀ (by norm_num : (0:ℚ) < 5)]; linarith
    have hfl : ⌊age / 5⌋ < 25 := Int.floor_lt.mpr (by exact_mod_cast hq)
    simp only [STEPS]
    omega
  have hagree : ∀ created_at now : ℚ,
      get_time_slot created_at now = some (slot_for_spec created_at now) := by
    intro a b
    simp only [get_time_slot, slot_for_spec]
    by_cases h : 0 ≤ b - a ∧ b - a ≤ 120
    · rw [if_neg (not_not_intro h), if_pos (hslot (b - a) h.1 h.2), if_pos h]
    · rw [if_pos h, if_neg h]
  refine ⟨hagree, ?_, ?_, ?_, ?_, ?_, ?_⟩
  · intro a b s h
    rw [hagree a b] at h
    have h' := Option.some.inj h
    by_cases hw : 0 ≤ b - a ∧ b - a ≤ 120
    · simp only [slot_for_spec, if_pos hw] at h'
      have hs := (Except.ok.inj h').symm
      exact ⟨hs, hs ▸ hslot (b - a) hw.1 hw.2, hw.1, hw.2⟩
    · simp only [slot_for_spec, if_neg hw] at h'
      exact absurd h' (by simp)
  · intro a b h
    rw [hagree a b]
    simp only [slot_for_spec, if_neg h]
  · rw [hagree]
    simp only [slot_for_spec]
    norm_num
  · rw [hagree]
    simp only [slot_for_spec]
    have hage : ((7199:ℚ) / 60 - 0) = 7199 / 60 := by ring
    have hin : (0:ℚ) ≤ 7199 / 60 ∧ (7199:ℚ) / 60 ≤ 120 := by norm_num
    rw [hage, if_pos hin]
    have hdiv : ((7199:ℚ) / 60) / 5 = 7199 / 300 := by ring
    have hfl : ⌊(7199:ℚ) / 300⌋ = 23 := Int.floor_eq_iff.mpr (by norm_num)
    rw [hdiv, hfl]
    rfl
  · rw [hagree]
    simp only [slot_for_spec, ratTruncToward0]
    norm_num
    rw [show (-1 : ℚ) = ((-1 : ℤ) : ℚ) by norm_num, Int.ceil_intCast]
  · rw [hagree]
    simp only [slot_for_spec, ratTruncToward0]
    norm_num

/-- Witness for C3: the universally quantified conjuncts of
`get_time_slot_spec` applied at concrete timestamps, with the hypotheses
discharged there: `(0, 0)` for the in-window branch and `(0, 121)` for the
stale branch. -/
theorem get_time_slot_spec_witness :
    ((0:ℕ) = (⌊((0:ℚ) - 0) / 5⌋).toNat ∧ 0 < STEPS ∧
      (0:ℚ) ≤ (0:ℚ) - 0 ∧ (0:ℚ) - 0 ≤ 120) ∧
    get_time_slot 0 121 = some (Except.error (ratTruncToward0 ((121:ℚ) - 0))) :=
  ⟨get_time_slot_spec.2.1 0 0 0 get_time_slot_spec.2.2.2.1,
   get_time_slot_spec.2.2.1 0 121 (by norm_num)⟩

/-- Claim C9 (amended): neither `by_offset` variant ever returns the Rust
`None` (`Except.ok none` here); for a valid offset (multiple of `STEPS`,
at most `MAX_OFFSET`) both return the `STEPS`-float window at that offset;
the `src/chuva/src/lib.rs` variant panics (`Except.error`) on every offset
violating that precondition, while the `src/moros/src/chuva.rs` variant
asserts only `offset <= MAX_OFFSET`, so it returns the window for any
in-bounds offset even when it is not a multiple of `STEPS`. -/
theorem by_offset_spec (data : ℕ → ℚ) (offset : ℕ) :
    (chuva_by_offset data offset ≠ Except.ok none ∧
     moros_by_offset data offset ≠ Except.ok none) ∧
    (offset % STEPS = 0 → offset ≤ MAX_OFFSET →
       chuva_by_offset data offset = Except.ok (some (window data offset)) ∧
       moros_by_offset data offset = Except.ok (some (window data offset))) ∧
    (¬(offset % STEPS = 0 ∧ offset ≤ MAX_OFFSET) →
       chuva_by_offset data offset = Except.error ()) ∧
    (offset ≤ MAX_OFFSET →
       moros_by_offset data offset = Except.ok (some (window data offset))) ∧
    (MAX_OFFSET < offset → moros_by_offset data offset = Except.error ()) := by
  refine ⟨⟨?_, ?_⟩, ?_, ?_, ?_, ?_⟩
  · unfold chuva_by_offset
    by_cases h : offset % STEPS = 0 ∧ offset ≤ MAX_OFFSET <;> simp [h]
  · unfold moros_by_offset
    by_cases h : offset ≤ MAX_OFFSET <;> simp [h]
  · intro h1 h2
    unfold chuva_by_offset moros_by_offset
    rw [if_pos ⟨h1, h2⟩, if_pos h2]
    exact ⟨rfl, rfl⟩
  · intro h
    unfold chuva_by_offset
    rw [if_neg h]
  · intro h
    unfold moros_by_offset
    rw [if_pos h]
  · intro h
    unfold moros_by_offset
    rw [if_neg (not_le.mpr h)]

/-- Witness for C9's amended theorem: both variants applied at the valid
offset `0`, and the moros variant at the in-bounds non-multiple offset `1`. -/
theorem by_offset_spec_witness :
    (chuva_by_offset (fun _ => 0) 0 = Except.ok (some (window (fun _ => 0) 0)) ∧
     moros_by_offset (fun _ => 0) 0 = Except.ok (some (window (fun _ => 0) 0))) ∧
    moros_by_offset (fun _ => 0) 1 = Except.ok (some (window (fun _ => 0) 1)) :=
  ⟨(by_offset_spec (fun _ => 0) 0).2.1 (by decide) (by decide),
   (by_offset_spec (fun _ => 0) 1).2.2.2.1 (by decide)⟩

/-- Counterexample for C9 as stated: the claim says any offset violating the
"multiple of STEPS and at most MAX_OFFSET" precondition makes `by_offset`
panic, but the `src/moros/src/chuva.rs` variant returns a window (no panic)
for the violating offset `1`, which is not a multiple of `STEPS`. -/
theorem by_offset_claim_counterexample :
    ¬((1 : ℕ) % STEPS = 0) ∧
    moros_by_offset (fun _ => 0) 1 = Except.ok (some (window (fun _ => 0) 1)) := by
  constructor
  · decide
  · rfl

/-- Claim C1 fails on `src/chuva/src/load.rs` / `src/dataset/src/lib.rs`:
with the member-indexed input, every chunk of 20 consecutive `buf` entries
lies inside a single member's `HEIGHT*WIDTH` plane (chunk 0 is 20
horizontally adjacent cells of member 0), so the stored value for dataset
cell 0 at step 0 is `sorted([0,...,0])[13] * 0.01 = 0`, while the claimed
reduction over the 20 member values of that cell — which the
`src/chuva/src/lib.rs` gather computes — is `sorted([0,...,19])[13] * 0.01
= 13 * 0.01`. -/
theorem load_ensemble_chunk_mismatch :
    chunk_rank13 precip_by_member 0 0 = 0 ∧
    member_rank13 precip_by_member 0 0 0 = 13 ∧
    gather_rank13 precip_by_member 0 0 0 = 13 ∧
    scale_001 (chunk_rank13 precip_by_member 0 0) ≠
      scale_001 (member_rank13 precip_by_member 0 0 0) := by
  refine ⟨by decide, by decide, by decide, ?_⟩
  have h0 : chunk_rank13 precip_by_member 0 0 = 0 := by decide
  have h13 : member_rank13 precip_by_member 0 0 0 = 13 := by decide
  rw [h0, h13]
  unfold scale_001
  rw [Rat.mkRat_eq_div]
  norm_num

/-- Claim C2: interpreting the 25-value series
`[0,0,0,0,0.72,1.20,0.12,0,0.12,0.12,0,0.12,0.12,0.12,0,...,0]` from start
slot 0 yields exactly `[Dry(0..4), Showers{4..14, gaps: 2}, Dry(14..25)]`
(the rational literals are written as explicit fractions of the decimal
values).  The two single-slot dry interruptions at indices 7 and 10 are
folded into the shower and counted as gaps; the dry run starting at 14 is
longer than one slot and terminates the merged interval. -/
theorem interpret_showers_example :
    interpret 0
      [0, 0, 0, 0, mkRat 72 100, mkRat 120 100, mkRat 12 100, 0, mkRat 12 100,
       mkRat 12 100, 0, mkRat 12 100, mkRat 12 100, mkRat 12 100, 0, 0, 0, 0,
       0, 0, 0, 0, 0, 0, 0] =
      [Expr.dry 0 4, Expr.showers 4 14 2, Expr.dry 14 25] := by decide

/-- Claim C6: (general part) whenever the token stream is exhausted
(`preds.length ≤ pos`, so `Tokenizer::next` returns `None`) while the
accumulator's most recently folded token was a single-slot dry blip
(`last_was_dry`), the folding loop un-merges that trailing slot — it emits
the accumulator with `num_gaps` decremented and `end` shrunk by one, and
stashes `Dry(end-1..end)`, which the following `Lexer::next` call emits —
and (concrete part) interpreting `[1,0,0,1,1,1,0]` from slot 0 yields
exactly `[Rain(0..1), Dry(1..3), Rain(3..6), Dry(6..7)]`. -/
theorem undo_last_dry_on_stream_end :
    (∀ (fuel : ℕ) (m : MergeState) (src : Tokenizer),
       src.preds.length ≤ src.pos → m.last_was_dry = true →
       lexLoop (fuel + 1) (some m) src =
         some (MergeState.into_expr
                 ⟨m.start, m.stop - 1, m.num_gaps - 1, false⟩,
               ⟨src, none, some (Token.dry (m.stop - 1) m.stop)⟩) ∧
       Lexer.next ⟨src, none, some (Token.dry (m.stop - 1) m.stop)⟩ =
         some (Expr.dry (m.stop - 1) m.stop, ⟨src, none, none⟩)) ∧
    interpret 0 [1, 0, 0, 1, 1, 1, 0] =
      [Expr.rain 0 1, Expr.dry 1 3, Expr.rain 3 6, Expr.dry 6 7] := by
  refine ⟨?_, by decide⟩
  intro fuel m src hpos hdry
  constructor
  · simp only [lexLoop, Tokenizer.next, if_pos hpos,
      MergeState.undo_last_dry_merge, if_pos hdry]
  · rfl

/-- Witness for C6: the theorem's general part applied at the concrete
automaton state reached at the end of the `[1,0,0,1,1,1,0]` run — the
accumulator `{start := 3, stop := 7, num_gaps := 1, last_was_dry := true}`
against the exhausted tokenizer at position 7. -/
theorem undo_last_dry_on_stream_end_witness :
    lexLoop 1 (some ⟨3, 7, 1, true⟩) ⟨7, [1, 0, 0, 1, 1, 1, 0]⟩ =
      some (MergeState.into_expr ⟨3, 6, 0, false⟩,
            ⟨⟨7, [1, 0, 0, 1, 1, 1, 0]⟩, none, some (Token.dry 6 7)⟩) ∧
    Lexer.next ⟨⟨7, [1, 0, 0, 1, 1, 1, 0]⟩, none, some (Token.dry 6 7)⟩ =
      some (Expr.dry 6 7, ⟨⟨7, [1, 0, 0, 1, 1, 1, 0]⟩, none, none⟩) :=
  undo_last_dry_on_stream_end.1 0 ⟨3, 7, 1, true⟩ ⟨7, [1, 0, 0, 1, 1, 1, 0]⟩
    (by decide) rfl

end Chuva
